import Mathlib

/-!
Shallow embedding of the decimal arithmetic core of the `money` package.

A Go `Decimal` is a pair of a `big.Int` coefficient (modelled as `Int`) and an
`int32` exponent.  The exponent is modelled as `Int`; wherever the Go code
performs `int32` arithmetic that can overflow for in-range operands, the wrap
is made explicit through `wrap32`.  `big.Int.Quo`/`Rem` truncate toward zero
and are modelled by `Int.tdiv`/`Int.tmod`; `big.Int.Div`/`Mod`/`DivMod` are
Euclidean and are modelled by `Int.ediv`/`Int.emod`.
-/

set_option maxRecDepth 8000

/-- Smallest `int32` value, `math.MinInt32`. -/
def int32Min : Int := -(2 ^ 31)

/-- Largest `int32` value, `math.MaxInt32`. -/
def int32Max : Int := 2 ^ 31 - 1

/-- Two's-complement wrap-around of Go `int32` arithmetic. -/
def wrap32 (x : Int) : Int := (x + 2 ^ 31) % 2 ^ 32 - 2 ^ 31

/-- Result of `big.Int.Cmp`: -1, 0 or 1. -/
def cmpInt (a b : Int) : Int := if a < b then -1 else if b < a then 1 else 0

/-- `Decimal` represents a fixed-point decimal: number = value * 10 ^ exp.
The Go field `value` is a `big.Int`, the field `exp` an `int32`. -/
structure Decimal where
  value : Int
  exp : Int
deriving DecidableEq

/-- `buildDecimal` constructs a decimal from an `int64` coefficient and an
`int32` exponent. -/
def buildDecimal (value : Int) (exp : Int) : Decimal := ⟨value, exp⟩

/-- `divisionPrecision` is the number of decimal places kept by `Div` when the
division is not exact. -/
def divisionPrecision : Int := 16

/-- `rescale` moves a decimal to exponent `e`: it truncates toward zero
(`big.Int.Quo`) when `e` is coarser, multiplies by the matching power of ten
when `e` is finer.  The Go code computes the exponent difference through
`float64`, which is exact for `int32`-range exponents; it is modelled by
`Int.natAbs`. -/
def Decimal.rescale (d : Decimal) (e : Int) : Decimal :=
  let diff := (e - d.exp).natAbs
  if d.exp < e then ⟨d.value.tdiv (10 ^ diff), e⟩
  else if e < d.exp then ⟨d.value * 10 ^ diff, e⟩
  else ⟨d.value, e⟩

/-- `Add` returns d + d2: both operands are rescaled to the smaller exponent
and the coefficients added. -/
def Decimal.Add (d d2 : Decimal) : Decimal :=
  let baseScale := min d.exp d2.exp
  ⟨(d.rescale baseScale).value + (d2.rescale baseScale).value, baseScale⟩

/-- `Sub` returns d - d2, analogously to `Add`. -/
def Decimal.Sub (d d2 : Decimal) : Decimal :=
  let baseScale := min d.exp d2.exp
  ⟨(d.rescale baseScale).value - (d2.rescale baseScale).value, baseScale⟩

/-- `Neg` returns -d. -/
def Decimal.Neg (d : Decimal) : Decimal := ⟨-d.value, d.exp⟩

/-- `Abs` returns the absolute value of the decimal. -/
def Decimal.Abs (d : Decimal) : Decimal := ⟨(d.value.natAbs : Int), d.exp⟩

/-- `Sign` returns the sign of the coefficient (`big.Int.Sign`). -/
def Decimal.Sign (d : Decimal) : Int := d.value.sign

/-- `Mul` returns d * d2: coefficient product, exponent sum.  The Go function
first computes the exponent sum in `int64` and panics when it falls outside
the `int32` range; that abort is modelled separately by `mulOverflows`, and
this function gives the value returned when no panic occurs. -/
def Decimal.Mul (d d2 : Decimal) : Decimal :=
  ⟨d.value * d2.value, d.exp + d2.exp⟩

/-- `mulOverflows` holds exactly when `Mul` panics in Go: the `int64` sum of
the two `int32` exponents lies outside the `int32` range. -/
def Decimal.mulOverflows (d d2 : Decimal) : Bool :=
  decide (int32Max < d.exp + d2.exp) || decide (d.exp + d2.exp < int32Min)

/-- `Cmp` compares the numbers represented by d and d2 after aligning them on
the smaller exponent. -/
def Decimal.Cmp (d d2 : Decimal) : Int :=
  if d.exp = d2.exp then cmpInt d.value d2.value
  else
    let baseExp := min d.exp d2.exp
    if d.exp ≠ baseExp then cmpInt (d.rescale baseExp).value d2.value
    else cmpInt d.value (d2.rescale baseExp).value

/-- `Equal` returns whether d and d2 represent the same number. -/
def Decimal.Equal (d d2 : Decimal) : Bool := d.Cmp d2 == 0

/-- `quoRem` performs division with remainder at the requested precision.
The expression `d.exp - d2.exp - scale` is evaluated by Go in `int32`
arithmetic before being widened to `int64`, hence the explicit `wrap32`; so
is the `int32` sum `scale + d2.exp`.  The zero-divisor and range panics are
modelled separately by `quoRemPanics`; this function gives the value computed
when no panic occurs. -/
def Decimal.quoRem (d d2 : Decimal) (precision : Int) : Decimal × Decimal :=
  let scale := -precision
  let e := wrap32 (d.exp - d2.exp - scale)
  if e < 0 then
    let bb := d2.value * 10 ^ (-e).toNat
    (⟨d.value.tdiv bb, scale⟩, ⟨d.value.tmod bb, d.exp⟩)
  else
    let aa := d.value * 10 ^ e.toNat
    (⟨aa.tdiv d2.value, scale⟩, ⟨aa.tmod d2.value, wrap32 (scale + d2.exp)⟩)

/-- `quoRemPanics` holds exactly when Go's `quoRem` panics: the divisor
coefficient is zero, or the (already wrapped) scale expression falls outside
the `int32` range. -/
def Decimal.quoRemPanics (d d2 : Decimal) (precision : Int) : Bool :=
  d2.value == 0 ||
    (let e := wrap32 (d.exp - d2.exp - (-precision))
     decide (int32Max < e) || decide (e < int32Min))

/-- `divRound` divides and rounds to the given precision.  Note the Go
comparison `d.value.Sign()*d2.value.Sign() < SignNegative` with
`SignNegative = -1`: the condition is `product < -1`, kept verbatim here. -/
def Decimal.divRound (d d2 : Decimal) (precision : Int) : Decimal :=
  let qr := d.quoRem d2 precision
  let q := qr.1
  let r := qr.2
  let r2 : Decimal := ⟨2 * (r.value.natAbs : Int), wrap32 (r.exp + precision)⟩
  let c := r2.Cmp d2.Abs
  if c < 0 then q
  else if d.value.sign * d2.value.sign < -1 then q.Sub (buildDecimal 1 (-precision))
  else q.Add (buildDecimal 1 (-precision))

/-- `Div` returns d / d2, rounded at `divisionPrecision` fractional digits. -/
def Decimal.Div (d d2 : Decimal) : Decimal := d.divRound d2 divisionPrecision

/-- `divPanics` holds exactly when `Div` aborts. -/
def Decimal.divPanics (d d2 : Decimal) : Bool :=
  d.quoRemPanics d2 divisionPrecision

/-- `Truncate` truncates digits off the number without rounding. -/
def Decimal.Truncate (d : Decimal) (precision : Int) : Decimal :=
  if 0 ≤ precision ∧ d.exp < -precision then d.rescale (-precision) else d

/-- `Mod` returns d % d2, via `d - d2 * truncate(d / d2)`. -/
def Decimal.Mod (d d2 : Decimal) : Decimal :=
  let quo := (d.Div d2).Truncate 0
  d.Sub (d2.Mul quo)

/-- `modPanics` holds exactly when `Mod` aborts: either its `Div` panics or
the inner `Mul` of the divisor by the truncated quotient overflows. -/
def Decimal.modPanics (d d2 : Decimal) : Bool :=
  d.divPanics d2 || d2.mulOverflows ((d.Div d2).Truncate 0)

/-- `Round` rounds the decimal to `places` decimal places: truncate to one
extra digit, add or subtract 5 there according to the sign, then drop that
digit with floor division (`big.Int.DivMod` is Euclidean) and a ceiling
adjustment for negative values.  `-places - 1` and `exp + 1` are `int32`
operations in Go, hence `wrap32`. -/
def Decimal.Round (d : Decimal) (places : Int) : Decimal :=
  let r := d.rescale (wrap32 (-places - 1))
  let v := if r.value.sign = -1 then r.value - 5 else r.value + 5
  let q := v / 10
  let m := v % 10
  let q2 := if q.sign = -1 ∧ m ≠ 0 then q + 1 else q
  ⟨q2, wrap32 (r.exp + 1)⟩

/-- `RoundNearest` rounds the decimal to the nearest unit: round to the
unit's own precision, take the remainder modulo the unit, flip the unit's
sign for negative values, then either add the unit complement of the
remainder (strictly past the half-unit mark) or subtract the remainder. -/
def Decimal.RoundNearest (d unit : Decimal) : Decimal :=
  let rounded := d.Round (wrap32 (-unit.exp))
  let remainder := rounded.Mod unit
  let neg := rounded.Sign = -1
  let cmp : Int := if neg then -1 else 1
  let unit2 := if neg then unit.Neg else unit
  if remainder.Cmp (unit2.Div (buildDecimal 2 0)) = cmp then
    rounded.Add (unit2.Sub remainder)
  else rounded.Sub remainder

/-- `Ceil` as written in Go: `10^(-exp)` is computed by `big.Int.Exp`, which
returns 1 whenever the exponent is negative (no modulus given); this is
captured by `Int.toNat` sending negative numbers to 0.  The quotient and
remainder come from the Euclidean `big.Int.DivMod`, and one is added to the
quotient whenever the remainder is nonzero. -/
def Decimal.Ceil (d : Decimal) : Decimal :=
  let s : Int := 10 ^ (-d.exp).toNat
  let z := d.value / s
  let m := d.value % s
  if m ≠ 0 then ⟨z + 1, 0⟩ else ⟨z, 0⟩

/-!
Parsing (`ParseDecimal`) and canonical text rendering (`String`).
-/

/-- Characters admitted by `ParseDecimal`'s first scan: digits plus the
runes `+`, `-` and `.` (`allowedDecimalRunes`).  Go uses `unicode.IsDigit`,
which also admits non-ASCII digit runes, but those are rejected by
`big.Int.SetString` immediately afterwards, so the observable result (an
error) is unchanged by restricting the scan to ASCII digits. -/
def allowedRune (c : Char) : Bool :=
  c.isDigit || c == '+' || c == '-' || c == '.'

/-- `strings.Split(value, ".")` for the one-character separator. -/
def splitOnDot : List Char → List (List Char)
  | [] => [[]]
  | c :: rest =>
    if c = '.' then [] :: splitOnDot rest
    else
      match splitOnDot rest with
      | [] => [[c]]
      | h :: t => (c :: h) :: t

/-- Numeric value of a big-endian list of decimal digits. -/
def natVal (l : List Nat) : Nat := l.foldl (fun a d => 10 * a + d) 0

/-- Numeric value of a big-endian list of ASCII digit characters. -/
def charsVal (l : List Char) : Nat := l.foldl (fun a c => 10 * a + (c.toNat - 48)) 0

/-- `big.Int.SetString` in base 10: an optional leading sign followed by at
least one ASCII digit, nothing else. -/
def setString (s : List Char) : Option Int :=
  match s with
  | [] => none
  | c :: rest =>
    if c = '+' then
      if rest ≠ [] ∧ rest.all Char.isDigit then some ((charsVal rest : Int)) else none
    else if c = '-' then
      if rest ≠ [] ∧ rest.all Char.isDigit then some (-(charsVal rest : Int)) else none
    else if (c :: rest).all Char.isDigit then some ((charsVal (c :: rest) : Int))
    else none

/-- Tail of `ParseDecimal`: run `SetString` on the joined digit text, then
check the exponent against the `int32` range. -/
def parseFinish (ints : List Char) (exp : Int) : Option Decimal :=
  match setString ints with
  | none => none
  | some v => if exp < int32Min ∨ int32Max < exp then none else some ⟨v, exp⟩

/-- `ParseDecimal` parses the text representation of a fixed-point number:
scan for admissible runes, split on the decimal separator, join the parts and
read them as one integer whose exponent is minus the fraction length. -/
def ParseDecimal (value : String) : Option Decimal :=
  let chars := value.toList
  if chars.all allowedRune then
    match splitOnDot chars with
    | [ints] => parseFinish ints 0
    | [ip, fp] => parseFinish (ip ++ fp) (-(fp.length : Int))
    | _ => none
  else none

/-- ASCII character of a decimal digit. -/
def digitChar (d : Nat) : Char := Char.ofNat (48 + d)

/-- Little-endian base-`b` digits, by structural recursion on a fuel bound so
that the kernel can evaluate it; agrees with `Nat.digits`. -/
def digitsRevFuel (b : Nat) : Nat → Nat → List Nat
  | 0, _ => []
  | fuel + 1, n => if n = 0 then [] else n % b :: digitsRevFuel b fuel (n / b)

/-- Little-endian base-`b` digits of `n`. -/
def digitsRev (b n : Nat) : List Nat := digitsRevFuel b n n

/-- Decimal digit characters of a natural number, most significant first;
`"0"` for zero.  Models `big.Int.String` on a non-negative value. -/
def natCharsAbs (n : Nat) : List Char :=
  if n = 0 then ['0'] else ((digitsRev 10 n).reverse.map digitChar)

/-- `roundPrec` returns the number of fractional digits of the stored scale. -/
def Decimal.roundPrec (d : Decimal) : Nat := if d.exp < 0 then (-d.exp).toNat else 0

/-- The Go `String` method, producing the character list of the canonical
text: for a non-negative exponent, the rescaled integer followed by `.` and
`prec` zeros; for a negative exponent, the absolute coefficient's digit
string split `-exp` characters from the right, left-padded with zeros, with
a leading `-` exactly when the coefficient is negative. -/
def Decimal.toStr (d : Decimal) : List Char :=
  if 0 ≤ d.exp then
    let v := (d.rescale 0).value
    let prec := if 0 < d.roundPrec then d.roundPrec else 1
    (if v < 0 then ['-'] else []) ++ natCharsAbs v.natAbs
      ++ '.' :: List.replicate prec '0'
  else
    let str := natCharsAbs d.value.natAbs
    let k := (-d.exp).toNat
    let intPart := if k < str.length then str.take (str.length - k) else ['0']
    let fracPart :=
      if k < str.length then str.drop (str.length - k)
      else List.replicate (k - str.length) '0' ++ str
    let core := intPart ++ (if fracPart.length > 0 then '.' :: fracPart else [])
    if d.value < 0 then '-' :: core else core

/-- The Go `String` method, as a `String`. -/
def Decimal.render (d : Decimal) : String := String.mk d.toStr

/-!
Binary marshalling: a 4-byte big-endian `uint32` image of the exponent,
followed by the gob encoding of the coefficient (`big.Int.GobEncode`: one
byte `version<<1 | sign`, then the minimal big-endian magnitude bytes).
-/

/-- Big-endian bytes of `uint32(exp)`. -/
def expBytes (e : Int) : List Nat :=
  let u := (e % 2 ^ 32).toNat
  [u / 2 ^ 24 % 256, u / 2 ^ 16 % 256, u / 2 ^ 8 % 256, u % 256]

/-- `big.Int.GobEncode`: version byte shifted left once, low bit set for a
negative value, followed by the magnitude bytes (empty for zero). -/
def gobEncodeInt (v : Int) : List Nat :=
  (if v < 0 then 3 else 2) :: (digitsRev 256 v.natAbs).reverse

/-- `big.Int.GobDecode`: empty input decodes to zero; otherwise the first
byte must carry version 1, its low bit gives the sign, and the rest is the
big-endian magnitude. -/
def gobDecodeInt (buf : List Nat) : Option Int :=
  match buf with
  | [] => some 0
  | b :: rest =>
    if b / 2 ≠ 1 then none
    else
      let n : Int := (Nat.ofDigits 256 rest.reverse : Nat)
      some (if b % 2 = 1 then -n else n)

/-- `MarshalBinary`: exponent bytes then gob-encoded coefficient. -/
def Decimal.MarshalBinary (d : Decimal) : List Nat :=
  expBytes d.exp ++ gobEncodeInt d.value

/-- `UnmarshalBinary`: read the `int32` exponent from the first four bytes
(two's complement reinterpretation of the `uint32`), gob-decode the rest. -/
def UnmarshalBinary (data : List Nat) : Option Decimal :=
  match data with
  | b0 :: b1 :: b2 :: b3 :: rest =>
    let u := ((b0 * 256 + b1) * 256 + b2) * 256 + b3
    (gobDecodeInt rest).map fun v => ⟨v, wrap32 (u : Int)⟩
  | _ => none

/-- Exact rational value represented by a decimal. -/
def Decimal.val (d : Decimal) : ℚ := (d.value : ℚ) * (10 : ℚ) ^ d.exp

/-!
Basic facts about the `int32` wrap.
-/

theorem wrap32_lb (x : Int) : int32Min ≤ wrap32 x := by
  have h := Int.emod_nonneg (x + 2 ^ 31) (by norm_num : (2 ^ 32 : Int) ≠ 0)
  unfold wrap32 int32Min
  omega

theorem wrap32_ub (x : Int) : wrap32 x ≤ int32Max := by
  have h := Int.emod_lt_of_pos (x + 2 ^ 31) (by norm_num : (0 : Int) < 2 ^ 32)
  unfold wrap32 int32Max
  omega

theorem wrap32_id {x : Int} (h1 : int32Min ≤ x) (h2 : x ≤ int32Max) :
    wrap32 x = x := by
  have h : (x + 2 ^ 31) % 2 ^ 32 = x + 2 ^ 31 := by
    apply Int.emod_eq_of_lt
    · unfold int32Min at h1; omega
    · unfold int32Max at h2; omega
  unfold wrap32
  omega

/-!
Claim theorems: division rounding (C1), unit-midpoint behaviour (C2),
ceiling (C3), and the tie direction of round-to-unit (C4).
-/

/-- C1: `div` computes the quotient at 16 fractional digits.  The positive
instance of the spec holds: 100.0 / 1.08 = 92.5925925925925926.  On the
negated dividend, however, `divRound` adds one unit in the last place instead
of subtracting it — the guard compares the sign product against
`SignNegative = -1` with a strict `<`, which never holds — so -100.0 / 1.08
evaluates to -92.5925925925925924 rather than the half-away-from-zero value
-92.5925925925925926 promised by the claim and by `divRound`'s own comment. -/
theorem div_halfAway_pos_neg_eval :
    Decimal.Div ⟨1000, -1⟩ ⟨108, -2⟩ = ⟨925925925925925926, -16⟩
    ∧ Decimal.Div ⟨-1000, -1⟩ ⟨108, -2⟩ = ⟨-925925925925925924, -16⟩
    ∧ Decimal.Div ⟨-1000, -1⟩ ⟨108, -2⟩ ≠ (⟨925925925925925926, -16⟩ : Decimal).Neg := by
  refine ⟨by decide, by decide, by decide⟩

/-- C2 counterexample: 0.1 with unit 0.2 sits exactly midway between the
multiples 0 and 0.2 (the claim then demands the greater-magnitude multiple,
0.2), yet `RoundNearest` returns a value strictly below 0.2 — the comparison
against half the unit is strict, so an exact midpoint falls into the
round-down branch. -/
theorem roundNearest_midpoint_counterexample :
    Decimal.Round ⟨1, -1⟩ (wrap32 (-(⟨2, -1⟩ : Decimal).exp)) = ⟨1, -1⟩
    ∧ ((⟨1, -1⟩ : Decimal).Sub ⟨0, 0⟩).Cmp ((⟨2, -1⟩ : Decimal).Sub ⟨1, -1⟩) = 0
    ∧ (Decimal.RoundNearest ⟨1, -1⟩ ⟨2, -1⟩).Cmp ⟨2, -1⟩ = -1 := by
  refine ⟨by decide, by decide, by decide⟩

/-- C2 (amended): whenever the remainder equals exactly half the
sign-adjusted unit (an exact unit-level midpoint), `RoundNearest` takes the
round-down branch — it subtracts the remainder, snapping to the truncated,
smaller-magnitude multiple — for positive and negative inputs alike; in
particular both 0.1 and -0.1 snap to 0 with unit 0.2. -/
theorem roundNearest_midpoint_toward_zero :
    (∀ x u : Decimal,
      ((x.Round (wrap32 (-u.exp))).Mod u).Cmp
          ((if (x.Round (wrap32 (-u.exp))).Sign = -1 then u.Neg else u).Div
            (buildDecimal 2 0)) = 0
        → x.RoundNearest u
          = (x.Round (wrap32 (-u.exp))).Sub ((x.Round (wrap32 (-u.exp))).Mod u))
    ∧ Decimal.RoundNearest ⟨1, -1⟩ ⟨2, -1⟩ = ⟨0, -1⟩
    ∧ Decimal.RoundNearest ⟨-1, -1⟩ ⟨2, -1⟩ = ⟨0, -1⟩ := by
  refine ⟨?_, by decide, by decide⟩
  intro x u hmid
  simp only [Decimal.RoundNearest]
  rw [if_neg ?hne]
  case hne =>
    rw [hmid]
    split <;> decide

/-- C2 witness: the general midpoint statement applied at 0.1 with unit
0.2. -/
theorem roundNearest_midpoint_toward_zero_witness :
    Decimal.RoundNearest ⟨1, -1⟩ ⟨2, -1⟩
      = ((⟨1, -1⟩ : Decimal).Round (wrap32 (-(⟨2, -1⟩ : Decimal).exp))).Sub
        (((⟨1, -1⟩ : Decimal).Round (wrap32 (-(⟨2, -1⟩ : Decimal).exp))).Mod ⟨2, -1⟩) :=
  roundNearest_midpoint_toward_zero.1 ⟨1, -1⟩ ⟨2, -1⟩ (by decide)

/-- C3: `Ceil` on the decimal 50 stored as 5 x 10^1.  `big.Int.Exp` with a
negative exponent and no modulus returns 1, so the divisor degenerates and
`Ceil` returns 5, which is strictly smaller than the input — the claimed
property `Ceil(x) >= x` fails on every positive-exponent decimal. -/
theorem ceil_positive_exponent_eval :
    Decimal.Ceil ⟨5, 1⟩ = ⟨5, 0⟩
    ∧ (Decimal.Ceil ⟨5, 1⟩).Cmp ⟨5, 1⟩ = -1 := by
  refine ⟨by decide, by decide⟩

/-- C4 counterexample: 0.3 is equidistant from the unit multiples 0.2 and
0.4; rounding "ties away from zero" would give 0.4, but `RoundNearest`
returns 0.2. -/
theorem roundNearest_ties_counterexample :
    ((⟨3, -1⟩ : Decimal).Sub ⟨2, -1⟩).Cmp ((⟨4, -1⟩ : Decimal).Sub ⟨3, -1⟩) = 0
    ∧ Decimal.RoundNearest ⟨3, -1⟩ ⟨2, -1⟩ = ⟨2, -1⟩
    ∧ (Decimal.RoundNearest ⟨3, -1⟩ ⟨2, -1⟩).Cmp ⟨4, -1⟩ = -1 := by
  refine ⟨by decide, by decide, by decide⟩

/-!
Structural facts about exponents, and rounding idempotence (C6).
-/

theorem rescale_exp (d : Decimal) (e : Int) : (d.rescale e).exp = e := by
  simp only [Decimal.rescale]
  split
  · rfl
  split <;> rfl

theorem sub_exp (a b : Decimal) : (a.Sub b).exp = min a.exp b.exp := rfl

theorem add_exp (a b : Decimal) : (a.Add b).exp = min a.exp b.exp := rfl

theorem rescale_down (d : Decimal) (e : Int) (h : e < d.exp) :
    d.rescale e = ⟨d.value * 10 ^ (e - d.exp).natAbs, e⟩ := by
  simp only [Decimal.rescale]
  rw [if_neg (by omega), if_pos h]

theorem round_shape (x : Decimal) (p : Int) :
    x.Round p = ⟨(x.Round p).value, wrap32 (wrap32 (-p - 1) + 1)⟩ := by
  simp only [Decimal.Round, rescale_exp]

/-- C6 (amended): rounding to a number of places is idempotent for every
`int32` argument except `math.MinInt32` (where the `int32` negation in
`-places - 1` and the `exp++` wrap interact): for all such p and every
decimal x, `Round(Round(x, p), p) = Round(x, p)`, even as stored
representations. -/
theorem round_idempotent (x : Decimal) (p : Int)
    (h1 : int32Min < p) (h2 : p ≤ int32Max) :
    (x.Round p).Round p = x.Round p := by
  have hb : (int32Min : Int) = -(2 ^ 31) ∧ (int32Max : Int) = 2 ^ 31 - 1 := ⟨rfl, rfl⟩
  have hw : wrap32 (-p - 1) = -p - 1 := wrap32_id (by omega) (by omega)
  have hw2 : wrap32 (-p - 1 + 1) = -p := by
    have he : -p - 1 + 1 = -p := by ring
    rw [he]
    exact wrap32_id (by omega) (by omega)
  obtain ⟨V, hV⟩ : ∃ V, x.Round p = ⟨V, -p⟩ := by
    refine ⟨(x.Round p).value, ?_⟩
    rw [round_shape x p, hw, hw2]
  rw [hV]
  have hlt : (-p - 1 : Int) < (⟨V, -p⟩ : Decimal).exp := by
    show -p - 1 < -p
    omega
  have hresc : Decimal.rescale ⟨V, -p⟩ (wrap32 (-p - 1)) = ⟨V * 10, -p - 1⟩ := by
    rw [hw, rescale_down _ _ hlt]
    have hd : (-p - 1 - (⟨V, -p⟩ : Decimal).exp).natAbs = 1 := by
      show (-p - 1 - (-p)).natAbs = 1
      have he : -p - 1 - (-p) = (-1 : Int) := by ring
      rw [he]
      rfl
    rw [hd, pow_one]
  simp only [Decimal.Round, hresc, hw2]
  rcases lt_or_le V 0 with hneg | hpos
  · have hs : (V * 10 : Int).sign = -1 := by
      rw [Int.sign_eq_neg_one_iff_neg]; omega
    rw [if_pos hs]
    have hv : V * 10 - 5 = -5 + (V - 1) * 10 + 10 := by ring
    have hv2 : V * 10 - 5 = 5 + (V - 1) * 10 := by ring
    have hq : (V * 10 - 5) / 10 = V - 1 := by
      rw [hv2, Int.add_mul_ediv_right _ _ (by norm_num : (10 : Int) ≠ 0)]
      norm_num
    have hm : (V * 10 - 5) % 10 = 5 := by
      rw [hv2, Int.add_mul_emod_self]
      decide
    rw [hq, hm]
    have hsq : (V - 1 : Int).sign = -1 := by
      rw [Int.sign_eq_neg_one_iff_neg]; omega
    rw [if_pos ⟨hsq, by norm_num⟩]
    congr 1
    omega
  · have hs : ¬((V * 10 : Int).sign = -1) := by
      rw [Int.sign_eq_neg_one_iff_neg]; omega
    rw [if_neg hs]
    have hv2 : V * 10 + 5 = 5 + V * 10 := by ring
    have hq : (V * 10 + 5) / 10 = V := by
      rw [hv2, Int.add_mul_ediv_right _ _ (by norm_num : (10 : Int) ≠ 0)]
      norm_num
    have hm : (V * 10 + 5) % 10 = 5 := by
      rw [hv2, Int.add_mul_emod_self]
      decide
    rw [hq, hm]
    have hsq : ¬((V : Int).sign = -1 ∧ (5 : Int) ≠ 0) := by
      rintro ⟨hsgn, -⟩
      rw [Int.sign_eq_neg_one_iff_neg] at hsgn
      omega
    rw [if_neg hsq]

/-- C6 witness: a concrete instance of the amended idempotence statement. -/
theorem round_idempotent_witness :
    int32Min < 2 ∧ (2 : Int) ≤ int32Max
    ∧ ((⟨11115, -5⟩ : Decimal).Round 2).Round 2 = (⟨11115, -5⟩ : Decimal).Round 2 :=
  ⟨by decide, by decide, round_idempotent ⟨11115, -5⟩ 2 (by decide) (by decide)⟩

theorem rescale_up (d : Decimal) (e : Int) (h : d.exp < e) :
    d.rescale e = ⟨d.value.tdiv (10 ^ (e - d.exp).natAbs), e⟩ := by
  simp only [Decimal.rescale]
  rw [if_pos h]

theorem tdiv_55_pow (n : Nat) : (55 * 10 ^ n : Int).tdiv (10 ^ (n + 1)) = 5 := by
  have hp : (0 : Int) < 10 ^ n := by positivity
  rw [Int.tdiv_eq_ediv (by positivity) (by positivity)]
  have hsplit : (55 * 10 ^ n : Int) = 5 * 10 ^ n + 5 * 10 ^ (n + 1) := by ring
  rw [hsplit, Int.add_mul_ediv_right _ _ (by positivity : (10 ^ (n + 1) : Int) ≠ 0)]
  rw [Int.ediv_eq_zero_of_lt (by positivity) (by nlinarith)]
  norm_num

theorem tdiv_one_pow (m : Nat) (hm : m ≠ 0) : (1 : Int).tdiv (10 ^ m) = 0 := by
  rw [Int.tdiv_eq_ediv (by norm_num) (by positivity)]
  refine Int.ediv_eq_zero_of_lt (by norm_num) ?_
  calc (1 : Int) < 10 ^ 1 := by norm_num
    _ ≤ 10 ^ m := by
        refine pow_le_pow_right₀ (by norm_num) ?_
        omega

/-- C6 counterexample: the claim quantifies over every `int32` argument, but
at `places = math.MinInt32` the `int32` negation wraps — `-places - 1`
evaluates to `MaxInt32` while the later `exp++` wraps back to `MinInt32` —
and rounding twice is not idempotent.  For x = 55 * 10^(2^31 - 2)
(numerically 5.5 * 10^(2^31 - 1)), the first `Round` produces the decimal
1 * 10^(-2^31), while rounding the result again collapses it to 0, a
numerically different value. -/
theorem round_idempotence_counterexample :
    (((⟨55 * 10 ^ (2 ^ 31 - 2 : Nat), 0⟩ : Decimal).Round (-(2 ^ 31))).Round
        (-(2 ^ 31))).Cmp
      ((⟨55 * 10 ^ (2 ^ 31 - 2 : Nat), 0⟩ : Decimal).Round (-(2 ^ 31))) = -1 := by
  have hw : wrap32 (-(-(2 ^ 31) : Int) - 1) = 2 ^ 31 - 1 := by decide
  have hx : (⟨55 * 10 ^ (2 ^ 31 - 2 : Nat), 0⟩ : Decimal).Round (-(2 ^ 31))
      = ⟨1, -(2 ^ 31)⟩ := by
    simp only [Decimal.Round]
    rw [hw]
    rw [rescale_up _ _
      (by decide : (⟨55 * 10 ^ (2 ^ 31 - 2 : Nat), 0⟩ : Decimal).exp < 2 ^ 31 - 1)]
    have hna : ((2 ^ 31 - 1 : Int)
        - (⟨55 * 10 ^ (2 ^ 31 - 2 : Nat), 0⟩ : Decimal).exp).natAbs
        = (2 ^ 31 - 2) + 1 := by decide
    rw [hna, tdiv_55_pow (2 ^ 31 - 2)]
    decide
  have hy : (⟨1, -(2 ^ 31)⟩ : Decimal).Round (-(2 ^ 31)) = ⟨0, -(2 ^ 31)⟩ := by
    simp only [Decimal.Round]
    rw [hw]
    rw [rescale_up _ _ (by decide : (⟨1, -(2 ^ 31)⟩ : Decimal).exp < 2 ^ 31 - 1)]
    have hnb : ((2 ^ 31 - 1 : Int) - (⟨1, -(2 ^ 31)⟩ : Decimal).exp).natAbs
        = 2 ^ 32 - 1 := by decide
    rw [hnb, tdiv_one_pow (2 ^ 32 - 1) (by norm_num)]
    decide
  rw [hx, hy]
  decide

/-!
Multiplication overflow (C7) and the division/modulo abort condition (C8).
-/

/-- C7: `Mul` returns the coefficient product with the exponent sum, and the
fatal abort happens exactly when the `int64` exponent sum leaves the `int32`
range; whenever `Mul` returns, the constructed decimal's exponent is again a
valid `int32`. -/
theorem mul_product_exponent_overflow (d d2 : Decimal)
    (h : d.mulOverflows d2 = false) :
    (d.Mul d2).value = d.value * d2.value
    ∧ (d.Mul d2).exp = d.exp + d2.exp
    ∧ int32Min ≤ (d.Mul d2).exp ∧ (d.Mul d2).exp ≤ int32Max
    ∧ ∀ d3 d4 : Decimal,
        (d3.mulOverflows d4 = true
          ↔ (int32Max < d3.exp + d4.exp ∨ d3.exp + d4.exp < int32Min)) := by
  have hiff : ∀ d3 d4 : Decimal,
      (d3.mulOverflows d4 = true
        ↔ (int32Max < d3.exp + d4.exp ∨ d3.exp + d4.exp < int32Min)) := by
    intro d3 d4
    simp [Decimal.mulOverflows]
  have hrange : ¬(int32Max < d.exp + d2.exp ∨ d.exp + d2.exp < int32Min) := by
    intro hcase
    rw [← hiff d d2] at hcase
    rw [h] at hcase
    cases hcase
  refine ⟨rfl, rfl, ?_, ?_, hiff⟩
  · show int32Min ≤ d.exp + d2.exp
    omega
  · show d.exp + d2.exp ≤ int32Max
    omega

/-- C7 witness: multiplying 2.5 by 0.04. -/
theorem mul_product_exponent_overflow_witness :
    Decimal.mulOverflows ⟨25, -1⟩ ⟨4, -2⟩ = false
    ∧ (Decimal.Mul ⟨25, -1⟩ ⟨4, -2⟩).value = 100
    ∧ (Decimal.Mul ⟨25, -1⟩ ⟨4, -2⟩).exp = -3 := by
  have h := mul_product_exponent_overflow ⟨25, -1⟩ ⟨4, -2⟩ (by decide)
  exact ⟨by decide, h.1.trans (by decide), h.2.1.trans (by decide)⟩

theorem quoRem_fst_exp (d d2 : Decimal) (p : Int) :
    (d.quoRem d2 p).1.exp = -p := by
  simp only [Decimal.quoRem]
  split <;> rfl

theorem div_exp (d d2 : Decimal) : (d.Div d2).exp = -16 := by
  have hq := quoRem_fst_exp d d2 divisionPrecision
  simp only [Decimal.Div, Decimal.divRound]
  split
  · exact hq
  split
  · rw [sub_exp, hq]
    rfl
  · rw [add_exp, hq]
    rfl

theorem div_trunc_exp (d d2 : Decimal) : ((d.Div d2).Truncate 0).exp = 0 := by
  have hd := div_exp d d2
  simp only [Decimal.Truncate]
  rw [if_pos ⟨le_refl 0, by omega⟩]
  rw [rescale_exp]
  rfl

/-- C8: division aborts exactly on a numerically zero divisor.  The second
panic inside `quoRem` (the scale-overflow guard) can never fire, because the
guarded expression is computed in `int32` arithmetic and wrapped before the
comparison; and the `Mul` inside `Mod` cannot overflow since the truncated
quotient always carries exponent 0.  So both `Div` and `Mod` abort exactly
when the divisor's coefficient is zero, and return normally otherwise. -/
theorem div_mod_abort_iff_zero_divisor (d d2 : Decimal)
    (h1 : int32Min ≤ d2.exp) (h2 : d2.exp ≤ int32Max) :
    (d.divPanics d2 = true ↔ d2.value = 0)
    ∧ (d.modPanics d2 = true ↔ d2.value = 0) := by
  have he1 := wrap32_lb (d.exp - d2.exp - -divisionPrecision)
  have he2 := wrap32_ub (d.exp - d2.exp - -divisionPrecision)
  have hdiv : d.divPanics d2 = true ↔ d2.value = 0 := by
    simp only [Decimal.divPanics, Decimal.quoRemPanics, Bool.or_eq_true,
      decide_eq_true_eq, beq_iff_eq]
    constructor
    · rintro (h | h | h)
      · exact h
      · omega
      · omega
    · intro h
      exact Or.inl h
  have hmul : d2.mulOverflows ((d.Div d2).Truncate 0) = false := by
    have ht := div_trunc_exp d d2
    simp only [Decimal.mulOverflows, ht, Bool.or_eq_false_iff, decide_eq_false_iff_not]
    omega
  refine ⟨hdiv, ?_⟩
  simp only [Decimal.modPanics, hmul, Bool.or_false]
  exact hdiv

/-- C8 witness: dividing by the decimal 0 * 10^5 aborts; dividing 1 by 0.3
does not. -/
theorem div_mod_abort_iff_zero_divisor_witness :
    Decimal.divPanics ⟨1, 0⟩ ⟨0, 5⟩ = true
    ∧ Decimal.modPanics ⟨1, 0⟩ ⟨0, 5⟩ = true
    ∧ Decimal.divPanics ⟨1, 0⟩ ⟨3, -1⟩ ≠ true := by
  refine ⟨(div_mod_abort_iff_zero_divisor ⟨1, 0⟩ ⟨0, 5⟩ (by decide) (by decide)).1.mpr rfl,
    (div_mod_abort_iff_zero_divisor ⟨1, 0⟩ ⟨0, 5⟩ (by decide) (by decide)).2.mpr rfl,
    fun hc => ?_⟩
  have h := (div_mod_abort_iff_zero_divisor ⟨1, 0⟩ ⟨3, -1⟩ (by decide) (by decide)).1.mp hc
  exact absurd h (by decide)

/-!
The exact rational value of a decimal, and the round-to-unit claims (C4).
-/

theorem val_mk (v e : Int) : (⟨v, e⟩ : Decimal).val = (v : ℚ) * (10 : ℚ) ^ e := rfl

theorem val_rescale_le (d : Decimal) (e : Int) (h : e ≤ d.exp) :
    (d.rescale e).val = d.val := by
  rcases lt_or_eq_of_le h with hlt | heq
  · rw [rescale_down _ _ hlt]
    unfold Decimal.val
    have hn : (((e - d.exp).natAbs : ℤ)) = d.exp - e := by omega
    push_cast
    rw [show ((10 : ℚ) ^ (e - d.exp).natAbs) = (10 : ℚ) ^ (((e - d.exp).natAbs : ℤ))
      from (zpow_natCast _ _).symm]
    rw [hn, mul_assoc, ← zpow_add₀ (by norm_num : (10 : ℚ) ≠ 0)]
    congr 1
    ring
  · subst heq
    simp [Decimal.rescale, Decimal.val]

theorem val_rescaled_value (d : Decimal) (e : Int) (h : e ≤ d.exp) :
    ((d.rescale e).value : ℚ) * (10 : ℚ) ^ e = d.val := by
  have hv := val_rescale_le d e h
  unfold Decimal.val at hv
  rw [rescale_exp] at hv
  exact hv

theorem val_add (a b : Decimal) : (a.Add b).val = a.val + b.val := by
  unfold Decimal.Add
  rw [val_mk]
  push_cast
  rw [add_mul, val_rescaled_value a _ (min_le_left _ _),
    val_rescaled_value b _ (min_le_right _ _)]

theorem val_sub (a b : Decimal) : (a.Sub b).val = a.val - b.val := by
  unfold Decimal.Sub
  rw [val_mk]
  push_cast
  rw [sub_mul, val_rescaled_value a _ (min_le_left _ _),
    val_rescaled_value b _ (min_le_right _ _)]

theorem val_mul (a b : Decimal) : (a.Mul b).val = a.val * b.val := by
  unfold Decimal.Mul
  rw [val_mk]
  unfold Decimal.val
  push_cast
  rw [zpow_add₀ (by norm_num : (10 : ℚ) ≠ 0)]
  ring

theorem val_neg (a : Decimal) : a.Neg.val = -a.val := by
  unfold Decimal.Neg Decimal.val
  push_cast
  ring

theorem val_div_trunc (a b : Decimal) :
    ((a.Div b).Truncate 0).val = (((a.Div b).Truncate 0).value : ℚ) := by
  unfold Decimal.val
  rw [div_trunc_exp]
  norm_num

theorem val_mod (a b : Decimal) :
    (a.Mod b).val = a.val - b.val * (((a.Div b).Truncate 0).value : ℚ) := by
  unfold Decimal.Mod
  rw [val_sub, val_mul, val_div_trunc]

/-- Every result of `RoundNearest` is an exact integer multiple of the unit. -/
theorem roundNearest_val_multiple (x u : Decimal) :
    ∃ k : ℤ, (x.RoundNearest u).val = (k : ℚ) * u.val := by
  simp only [Decimal.RoundNearest]
  set q : ℤ := (((x.Round (wrap32 (-u.exp))).Div u).Truncate 0).value with hq
  have hrem := val_mod (x.Round (wrap32 (-u.exp))) u
  by_cases hs : (x.Round (wrap32 (-u.exp))).Sign = -1
  · rw [if_pos hs, if_pos hs]
    split
    · refine ⟨q - 1, ?_⟩
      rw [val_add, val_sub, val_neg, hrem]
      push_cast
      ring
    · refine ⟨q, ?_⟩
      rw [val_sub, hrem]
      ring
  · rw [if_neg hs, if_neg hs]
    split
    · refine ⟨q + 1, ?_⟩
      rw [val_add, val_sub, hrem]
      push_cast
      ring
    · refine ⟨q, ?_⟩
      rw [val_sub, hrem]
      ring

/-- C4 (amended): `RoundNearest` always lands on an integer multiple of the
unit; exact midpoints resolve toward zero rather than away (see the
counterexample); and the concrete claimed instances hold: 0.13 and -0.13
with unit 0.05 round to 0.15 and -0.15 (mirror images), 120.03 rounds to
120.05, and 120.01 rounds to 120.00.  The multiple-of-unit part does not
depend on the nonzero hypothesis, but is stated under it because a zero
unit makes the Go code abort inside `Mod`. -/
theorem roundNearest_unit_contract (x u : Decimal) (hu : u.value ≠ 0) :
    (∃ k : ℤ, (x.RoundNearest u).val = (k : ℚ) * u.val)
    ∧ Decimal.RoundNearest ⟨13, -2⟩ ⟨5, -2⟩ = ⟨15, -2⟩
    ∧ Decimal.RoundNearest ⟨-13, -2⟩ ⟨5, -2⟩ = (⟨15, -2⟩ : Decimal).Neg
    ∧ Decimal.RoundNearest ⟨12003, -2⟩ ⟨5, -2⟩ = ⟨12005, -2⟩
    ∧ Decimal.RoundNearest ⟨12001, -2⟩ ⟨5, -2⟩ = ⟨12000, -2⟩ :=
  ⟨roundNearest_val_multiple x u, by decide, by decide, by decide, by decide⟩

/-- C4 witness: the contract instantiated at 0.13 with unit 0.05. -/
theorem roundNearest_unit_contract_witness :
    (⟨5, -2⟩ : Decimal).value ≠ 0
    ∧ (∃ k : ℤ, (Decimal.RoundNearest ⟨13, -2⟩ ⟨5, -2⟩).val = (k : ℚ) * (⟨5, -2⟩ : Decimal).val)
    ∧ Decimal.RoundNearest ⟨12003, -2⟩ ⟨5, -2⟩ = ⟨12005, -2⟩ :=
  ⟨by decide, (roundNearest_unit_contract ⟨13, -2⟩ ⟨5, -2⟩ (by decide)).1,
    (roundNearest_unit_contract ⟨13, -2⟩ ⟨5, -2⟩ (by decide)).2.2.2.1⟩

/-!
Binary round-trip (C10).
-/

theorem digitsRevFuel_eq (b : Nat) (hb : 2 ≤ b) :
    ∀ fuel n, n ≤ fuel → digitsRevFuel b fuel n = Nat.digits b n := by
  intro fuel
  induction fuel with
  | zero =>
    intro n hn
    have h0 : n = 0 := by omega
    subst h0
    simp [digitsRevFuel]
  | succ f ih =>
    intro n hn
    by_cases h0 : n = 0
    · subst h0
      simp [digitsRevFuel]
    · have hstep : digitsRevFuel b (f + 1) n = n % b :: digitsRevFuel b f (n / b) := by
        simp [digitsRevFuel, h0]
      have hdec : n / b ≤ f := by
        have := Nat.div_lt_self (by omega : 0 < n) (by omega : 1 < b)
        omega
      rw [hstep, ih (n / b) hdec]
      rw [Nat.digits_def' (by omega : 1 < b) (by omega : 0 < n)]

theorem digitsRev_eq (b n : Nat) (hb : 2 ≤ b) : digitsRev b n = Nat.digits b n :=
  digitsRevFuel_eq b hb n n le_rfl

theorem gobDecode_encode (v : Int) : gobDecodeInt (gobEncodeInt v) = some v := by
  unfold gobEncodeInt gobDecodeInt
  by_cases hv : v < 0
  · rw [if_pos hv]
    simp only [List.reverse_reverse, digitsRev_eq 256 v.natAbs (by norm_num),
      Nat.ofDigits_digits]
    rw [show ((v.natAbs : Int)) = -v by omega]
    norm_num
  · rw [if_neg hv]
    simp only [List.reverse_reverse, digitsRev_eq 256 v.natAbs (by norm_num),
      Nat.ofDigits_digits]
    rw [show ((v.natAbs : Int)) = v by omega]
    norm_num

/-- C10: the binary encoding round-trips exactly: unmarshalling the output of
`MarshalBinary` on any decimal with an `int32`-range exponent restores the
same coefficient and the same exponent — trailing-zero scale included — via
the 4-byte big-endian exponent prefix and the gob-encoded coefficient. -/
theorem binary_roundtrip (d : Decimal)
    (h1 : int32Min ≤ d.exp) (h2 : d.exp ≤ int32Max) :
    UnmarshalBinary d.MarshalBinary = some d := by
  have hnn : (0 : Int) ≤ d.exp % 2 ^ 32 := Int.emod_nonneg d.exp (by norm_num)
  have hlt : d.exp % 2 ^ 32 < 2 ^ 32 := Int.emod_lt_of_pos d.exp (by norm_num)
  set u : Nat := (d.exp % 2 ^ 32).toNat with hu
  have huv : (u : Int) = d.exp % 2 ^ 32 := Int.toNat_of_nonneg hnn
  have hub : u < 2 ^ 32 := by omega
  show UnmarshalBinary
      (u / 2 ^ 24 % 256 :: u / 2 ^ 16 % 256 :: u / 2 ^ 8 % 256 :: u % 256
        :: gobEncodeInt d.value) = some d
  simp only [UnmarshalBinary]
  rw [gobDecode_encode, Option.map_some']
  have hX : ((u / 2 ^ 24 % 256 * 256 + u / 2 ^ 16 % 256) * 256 + u / 2 ^ 8 % 256) * 256
      + u % 256 = u := by omega
  rw [hX]
  have hwrap : wrap32 ((u : Int)) = d.exp := by
    rw [huv]
    unfold wrap32
    rw [Int.emod_add_emod]
    have hid := wrap32_id h1 h2
    unfold wrap32 at hid
    exact hid
  rw [hwrap]

/-- C10 witness: round-tripping the decimal -12.345. -/
theorem binary_roundtrip_witness :
    int32Min ≤ (-3 : Int) ∧ (-3 : Int) ≤ int32Max
    ∧ UnmarshalBinary (Decimal.MarshalBinary ⟨-12345, -3⟩) = some ⟨-12345, -3⟩ :=
  ⟨by decide, by decide, binary_roundtrip ⟨-12345, -3⟩ (by decide) (by decide)⟩

/-!
Characterisation of `ParseDecimal` (C9).
-/

/-- The digit portion of an optionally signed text: a single leading sign is
stripped; everything else must be digits for `SetString` to accept. -/
def signedDigitTail (l : List Char) : List Char :=
  match l with
  | [] => []
  | c :: rest => if c = '+' ∨ c = '-' then rest else c :: rest

/-- Length of the fractional part of a text (0 when no point is present). -/
def fracLen (t : String) : Nat :=
  match splitOnDot t.toList with
  | [_, fp] => fp.length
  | _ => 0

/-- Exactly the inputs `ParseDecimal` accepts: only digits, signs and points;
at most one point; after deleting the point, an optionally signed nonempty
digit string; and at most 2^31 fractional digits (the `int32` exponent
check). -/
def goodShape (t : String) : Prop :=
  t.toList.all allowedRune = true
  ∧ t.toList.count '.' ≤ 1
  ∧ signedDigitTail (t.toList.filter (fun c => c != '.')) ≠ []
  ∧ (signedDigitTail (t.toList.filter (fun c => c != '.'))).all Char.isDigit = true
  ∧ (fracLen t : Int) ≤ 2 ^ 31

theorem splitOnDot_ne_nil (l : List Char) : splitOnDot l ≠ [] := by
  induction l with
  | nil => simp [splitOnDot]
  | cons c rest ih =>
    simp only [splitOnDot]
    split
    · simp
    · split
      · simp
      · simp

theorem splitOnDot_count (l : List Char) :
    (splitOnDot l).length = l.count '.' + 1 := by
  induction l with
  | nil => simp [splitOnDot]
  | cons c rest ih =>
    simp only [splitOnDot]
    by_cases hc : c = '.'
    · rw [if_pos hc]
      subst hc
      simp [List.count_cons, ih]
    · rw [if_neg hc]
      rcases hs : splitOnDot rest with _ | ⟨h, t⟩
      · exact absurd hs (splitOnDot_ne_nil rest)
      · rw [hs] at ih
        simp only [List.length_cons] at ih
        simp [List.count_cons, hc, ih, Ne.symm hc]

theorem splitOnDot_single {l a : List Char} (h : splitOnDot l = [a]) :
    l = a ∧ '.' ∉ a := by
  induction l generalizing a with
  | nil =>
    simp only [splitOnDot, List.cons.injEq, and_true] at h
    subst h
    simp
  | cons c rest ih =>
    simp only [splitOnDot] at h
    by_cases hc : c = '.'
    · rw [if_pos hc] at h
      simp only [List.cons.injEq] at h
      exact absurd h.2 (splitOnDot_ne_nil rest)
    · rw [if_neg hc] at h
      rcases hs : splitOnDot rest with _ | ⟨hh, tt⟩
      · exact absurd hs (splitOnDot_ne_nil rest)
      · rw [hs] at h
        simp only [List.cons.injEq] at h
        obtain ⟨ha, htt⟩ := h
        subst htt
        obtain ⟨hrest, hnot⟩ := ih hs
        subst hrest
        subst ha
        refine ⟨rfl, ?_⟩
        intro hmem
        rcases List.mem_cons.mp hmem with hd | hd
        · exact hc hd.symm
        · exact hnot hd

theorem splitOnDot_pair {l a b : List Char} (h : splitOnDot l = [a, b]) :
    l = a ++ '.' :: b ∧ '.' ∉ a ∧ '.' ∉ b := by
  induction l generalizing a with
  | nil =>
    simp only [splitOnDot, List.cons.injEq, and_true] at h
    exact absurd h.2.symm (List.cons_ne_nil b [])
  | cons c rest ih =>
    simp only [splitOnDot] at h
    by_cases hc : c = '.'
    · rw [if_pos hc] at h
      simp only [List.cons.injEq] at h
      obtain ⟨ha, hb⟩ := h
      obtain ⟨hrest, hnot⟩ := splitOnDot_single hb
      subst hrest
      subst hc
      rw [← ha]
      exact ⟨rfl, by simp, hnot⟩
    · rw [if_neg hc] at h
      rcases hs : splitOnDot rest with _ | ⟨hh, tt⟩
      · exact absurd hs (splitOnDot_ne_nil rest)
      · rw [hs] at h
        simp only [List.cons.injEq] at h
        obtain ⟨ha, htt⟩ := h
        subst htt
        obtain ⟨hrest, hna, hnb⟩ := ih hs
        subst hrest
        subst ha
        refine ⟨rfl, ?_, hnb⟩
        intro hmem
        rcases List.mem_cons.mp hmem with hd | hd
        · exact hc hd.symm
        · exact hna hd

theorem setString_isSome (l : List Char) :
    (∃ v, setString l = some v)
      ↔ (signedDigitTail l ≠ [] ∧ (signedDigitTail l).all Char.isDigit = true) := by
  cases l with
  | nil => simp [setString, signedDigitTail]
  | cons c rest =>
    simp only [setString, signedDigitTail]
    by_cases hp : c = '+'
    · rw [if_pos hp, if_pos (Or.inl hp)]
      split
      · rename_i hcond
        exact iff_of_true ⟨_, rfl⟩ hcond
      · rename_i hcond
        refine iff_of_false ?_ hcond
        rintro ⟨v, hv⟩
        cases hv
    · by_cases hm : c = '-'
      · rw [if_neg hp, if_pos hm, if_pos (Or.inr hm)]
        split
        · rename_i hcond
          exact iff_of_true ⟨_, rfl⟩ hcond
        · rename_i hcond
          refine iff_of_false ?_ hcond
          rintro ⟨v, hv⟩
          cases hv
      · rw [if_neg hp, if_neg hm, if_neg (by tauto : ¬(c = '+' ∨ c = '-'))]
        split
        · rename_i hcond
          exact iff_of_true ⟨_, rfl⟩ ⟨List.cons_ne_nil c rest, hcond⟩
        · rename_i hcond
          refine iff_of_false ?_ ?_
          · rintro ⟨v, hv⟩
            cases hv
          · rintro ⟨-, hdig⟩
            exact hcond hdig

theorem parseFinish_some (ints : List Char) (e : Int) :
    (∃ d, parseFinish ints e = some d)
      ↔ ((∃ v, setString ints = some v) ∧ ¬(e < int32Min ∨ int32Max < e)) := by
  rcases h : setString ints with _ | v
  · simp only [parseFinish, h]
    simp
  · simp only [parseFinish, h]
    split
    · rename_i hrange
      refine iff_of_false ?_ ?_
      · rintro ⟨d, hd⟩
        cases hd
      · rintro ⟨-, hr⟩
        exact hr hrange
    · rename_i hrange
      exact iff_of_true ⟨⟨v, e⟩, rfl⟩ ⟨⟨v, rfl⟩, hrange⟩

theorem parseFinish_val (ints : List Char) (e : Int) (d : Decimal)
    (h : parseFinish ints e = some d) : d.exp = e := by
  rcases hs : setString ints with _ | v
  · simp only [parseFinish, hs] at h
    cases h
  · simp only [parseFinish, hs] at h
    split at h
    · cases h
    · cases h
      rfl

theorem filter_no_dot {l : List Char} (h : '.' ∉ l) :
    l.filter (fun c => c != '.') = l := by
  refine List.filter_eq_self.mpr ?_
  intro x hx
  refine bne_iff_ne.mpr ?_
  intro he
  exact h (he ▸ hx)

/-- C9 (amended): `ParseDecimal` succeeds exactly on texts made of digits,
signs and at most one point whose point-free residue is an optionally signed
nonempty digit string with at most 2^31 fractional digits; on success the
exponent is minus the number of digits after the point (0 when absent).
Every other input is rejected with the invalid-decimal error. -/
theorem parse_characterization (t : String) :
    ((∃ d, ParseDecimal t = some d) ↔ goodShape t)
    ∧ ∀ d, ParseDecimal t = some d → d.exp = -(fracLen t : Int) := by
  by_cases hall : t.toList.all allowedRune = true
  · simp only [ParseDecimal]
    rw [if_pos hall]
    rcases hsplit : splitOnDot t.toList with _ | ⟨a, _ | ⟨b, _ | ⟨c3, rest3⟩⟩⟩
    · exact absurd hsplit (splitOnDot_ne_nil t.toList)
    · show ((∃ d, parseFinish a 0 = some d) ↔ goodShape t)
        ∧ ∀ d, parseFinish a 0 = some d → d.exp = -(fracLen t : Int)
      obtain ⟨hla, hnd⟩ := splitOnDot_single hsplit
      have hcount : t.toList.count '.' = 0 := by
        have hc := splitOnDot_count t.toList
        rw [hsplit] at hc
        simpa using hc.symm
      have hfe : t.toList.filter (fun c => c != '.') = a := by
        rw [hla]
        exact filter_no_dot hnd
      have hfl : fracLen t = 0 := by
        simp only [fracLen, hsplit]
      have hgs : goodShape t
          ↔ (signedDigitTail a ≠ [] ∧ (signedDigitTail a).all Char.isDigit = true) := by
        unfold goodShape
        rw [hfe, hcount, hfl]
        simp
        intro h1 h2
        exact List.all_eq_true.mp hall
      constructor
      · rw [parseFinish_some, setString_isSome, hgs]
        have hr : ¬((0 : Int) < int32Min ∨ int32Max < 0) := by
          unfold int32Min int32Max
          omega
        simp [hr]
      · intro d hd
        rw [parseFinish_val a 0 d hd, hfl]
        norm_num
    · show ((∃ d, parseFinish (a ++ b) (-(b.length : Int)) = some d) ↔ goodShape t)
        ∧ ∀ d, parseFinish (a ++ b) (-(b.length : Int)) = some d
            → d.exp = -(fracLen t : Int)
      obtain ⟨hlab, hna, hnb⟩ := splitOnDot_pair hsplit
      have hcount : t.toList.count '.' = 1 := by
        have hc := splitOnDot_count t.toList
        rw [hsplit] at hc
        simpa using hc.symm
      have hfe : t.toList.filter (fun c => c != '.') = a ++ b := by
        rw [hlab, List.filter_append, filter_no_dot hna, List.filter_cons]
        rw [if_neg (by simp)]
        rw [filter_no_dot hnb]
      have hfl : fracLen t = b.length := by
        simp only [fracLen, hsplit]
      have hrange : ¬((-(b.length : Int)) < int32Min ∨ int32Max < (-(b.length : Int)))
          ↔ ((b.length : Int) ≤ 2 ^ 31) := by
        unfold int32Min int32Max
        omega
      have hgs : goodShape t
          ↔ ((signedDigitTail (a ++ b) ≠ []
              ∧ (signedDigitTail (a ++ b)).all Char.isDigit = true)
            ∧ (b.length : Int) ≤ 2 ^ 31) := by
        unfold goodShape
        rw [hfe, hcount, hfl]
        simp [and_assoc]
        intro h1 h2 h3
        exact List.all_eq_true.mp hall
      constructor
      · rw [parseFinish_some, setString_isSome, hgs, hrange]
      · intro d hd
        rw [parseFinish_val _ _ d hd, hfl]
    · show ((∃ d, (none : Option Decimal) = some d) ↔ goodShape t)
        ∧ ∀ d, (none : Option Decimal) = some d → d.exp = -(fracLen t : Int)
      have hcount : 2 ≤ t.toList.count '.' := by
        have hc := splitOnDot_count t.toList
        rw [hsplit] at hc
        simp only [List.length_cons] at hc
        omega
      refine ⟨iff_of_false ?_ ?_, ?_⟩
      · rintro ⟨d, hd⟩
        cases hd
      · rintro ⟨-, hle, -⟩
        omega
      · intro d hd
        cases hd
  · have hp : ParseDecimal t = none := by
      simp only [ParseDecimal]
      rw [if_neg hall]
    rw [hp]
    refine ⟨iff_of_false ?_ ?_, ?_⟩
    · rintro ⟨d, hd⟩
      cases hd
    · rintro ⟨ha, -⟩
      exact hall ha
    · intro d hd
      cases hd

/-- C9 counterexample: the text "." contains no character outside digits,
signs and the decimal point, and has exactly one point, yet `ParseDecimal`
rejects it — the claimed failure condition is not exhaustive, because
`SetString` also fails when no digits are present. -/
theorem parse_dot_counterexample :
    ParseDecimal "." = none
    ∧ (".".toList.all allowedRune) = true
    ∧ ".".toList.count '.' = 1 := by
  refine ⟨by decide, by decide, by decide⟩

/-- C9 witness: a well-formed text is accepted, with scale given by the
fraction length. -/
theorem parse_characterization_witness :
    ParseDecimal "12.345" ≠ none ∧ fracLen "12.345" = 3 := by
  constructor
  · intro hnone
    have h := (parse_characterization "12.345").1.mpr
      (by refine ⟨by decide, by decide, by decide, by decide, by decide⟩)
    obtain ⟨d, hd⟩ := h
    rw [hnone] at hd
    cases hd
  · decide

/-!
Canonical text round-trip (C5): support lemmas about digits and splitting.
-/

/-- The character list of a canonical decimal text: optional minus sign,
integer digits, explicit point, fractional digits. -/
def renderChars (neg : Bool) (ip fp : List Nat) : List Char :=
  (if neg then ['-'] else []) ++ ip.map digitChar ++ '.' :: fp.map digitChar

theorem digitChar_toNat (d : Nat) (h : d < 10) : (digitChar d).toNat - 48 = d := by
  interval_cases d <;> decide

theorem digitChar_isDigit (d : Nat) (h : d < 10) : (digitChar d).isDigit = true := by
  interval_cases d <;> decide

theorem digitChar_allowed (d : Nat) (h : d < 10) : allowedRune (digitChar d) = true := by
  interval_cases d <;> decide

theorem digitChar_ne_dot (d : Nat) (h : d < 10) : digitChar d ≠ '.' := by
  interval_cases d <;> decide

theorem digitChar_ne_plus (d : Nat) (h : d < 10) : digitChar d ≠ '+' := by
  interval_cases d <;> decide

theorem digitChar_ne_minus (d : Nat) (h : d < 10) : digitChar d ≠ '-' := by
  interval_cases d <;> decide

theorem splitOnDot_no_dot {l : List Char} (h : '.' ∉ l) : splitOnDot l = [l] := by
  induction l with
  | nil => rfl
  | cons c t ih =>
    have hc : ¬(c = '.') := by
      intro hc
      exact h (by rw [hc] at *; exact List.mem_cons_self _ _)
    simp only [splitOnDot]
    rw [if_neg hc]
    rw [ih (fun hm => h (List.mem_cons_of_mem c hm))]

theorem splitOnDot_append {a b : List Char} (h : '.' ∉ a) :
    splitOnDot (a ++ '.' :: b) = a :: splitOnDot b := by
  induction a with
  | nil => simp [splitOnDot]
  | cons c t ih =>
    have hc : ¬(c = '.') := by
      intro hc
      exact h (by rw [hc] at *; exact List.mem_cons_self _ _)
    simp only [List.cons_append, splitOnDot]
    rw [if_neg hc]
    have ih2 := ih (fun hm => h (List.mem_cons_of_mem c hm))
    simp only [List.append_eq]
    rw [ih2]

theorem charsVal_map_aux (l : List Nat) (h : ∀ d ∈ l, d < 10) :
    ∀ a : Nat, (l.map digitChar).foldl (fun a c => 10 * a + (c.toNat - 48)) a
      = l.foldl (fun a d => 10 * a + d) a := by
  induction l with
  | nil => intro a; rfl
  | cons d t ih =>
    intro a
    simp only [List.map_cons, List.foldl_cons]
    rw [digitChar_toNat d (h d (List.mem_cons_self d t))]
    exact ih (fun x hx => h x (List.mem_cons_of_mem d hx)) _

theorem charsVal_map (l : List Nat) (h : ∀ d ∈ l, d < 10) :
    charsVal (l.map digitChar) = natVal l :=
  charsVal_map_aux l h 0

theorem natVal_foldl_aux (l : List Nat) :
    ∀ a : Nat, l.foldl (fun a d => 10 * a + d) a
      = a * 10 ^ l.length + Nat.ofDigits 10 l.reverse := by
  induction l with
  | nil =>
    intro a
    simp [Nat.ofDigits]
  | cons d t ih =>
    intro a
    simp only [List.foldl_cons, List.reverse_cons, List.length_cons]
    rw [ih (10 * a + d), Nat.ofDigits_append]
    simp only [Nat.ofDigits_cons, Nat.ofDigits_nil, List.length_reverse, pow_succ]
    push_cast
    ring

theorem natVal_eq (l : List Nat) : natVal l = Nat.ofDigits 10 l.reverse := by
  have h := natVal_foldl_aux l 0
  simpa [natVal] using h

theorem digits_natVal {l : List Nat} (hd : ∀ d ∈ l, d < 10) (hne : l ≠ [])
    (hh : l.head hne ≠ 0) : Nat.digits 10 (natVal l) = l.reverse := by
  rw [natVal_eq]
  refine Nat.digits_ofDigits 10 (by norm_num) l.reverse ?_ ?_
  · intro x hx
    exact hd x (List.mem_reverse.mp hx)
  · intro hrev
    have e1 := List.getLast?_eq_getLast l.reverse hrev
    rw [List.getLast?_reverse] at e1
    rw [List.head?_eq_head hne] at e1
    have e2 : l.reverse.getLast hrev = l.head hne := (Option.some_injective _ e1).symm
    rw [e2]
    exact hh

theorem natVal_ne_zero {l : List Nat} (hd : ∀ d ∈ l, d < 10) (hne : l ≠ [])
    (hh : l.head hne ≠ 0) : natVal l ≠ 0 := by
  intro h0
  have hdig := digits_natVal hd hne hh
  rw [h0, Nat.digits_zero] at hdig
  exact hne (by simpa using hdig.symm)

theorem natCharsAbs_natVal {l : List Nat} (hd : ∀ d ∈ l, d < 10) (hne : l ≠ [])
    (hh : l.head hne ≠ 0) : natCharsAbs (natVal l) = l.map digitChar := by
  unfold natCharsAbs
  rw [if_neg (natVal_ne_zero hd hne hh)]
  rw [digitsRev_eq 10 _ (by norm_num), digits_natVal hd hne hh, List.reverse_reverse]

theorem natVal_cons_zero (l : List Nat) : natVal (0 :: l) = natVal l := rfl

theorem natVal_replicate_zero_append (z : Nat) (l : List Nat) :
    natVal (List.replicate z 0 ++ l) = natVal l := by
  induction z with
  | zero => rfl
  | succ n ih =>
    rw [List.replicate_succ, List.cons_append]
    rw [show natVal (0 :: (List.replicate n 0 ++ l)) = natVal (List.replicate n 0 ++ l)
      from rfl]
    exact ih

theorem strip_zeros (l : List Nat) :
    ∃ z l2, l = List.replicate z 0 ++ l2 ∧ l2.head? ≠ some 0 := by
  induction l with
  | nil => exact ⟨0, [], rfl, by simp⟩
  | cons d t ih =>
    by_cases hd : d = 0
    · obtain ⟨z, l2, hl, hh⟩ := ih
      subst hd
      refine ⟨z + 1, l2, ?_, hh⟩
      rw [List.replicate_succ, List.cons_append, hl]
    · exact ⟨0, d :: t, rfl, by simp [hd]⟩

theorem natVal_zero_replicate {l : List Nat} (hd : ∀ d ∈ l, d < 10)
    (h : natVal l = 0) : l = List.replicate l.length 0 := by
  obtain ⟨z, l2, hl, hh⟩ := strip_zeros l
  rcases l2 with _ | ⟨d2, t2⟩
  · subst hl
    simp
  · exfalso
    have hd2 : d2 ≠ 0 := by
      intro h0
      subst h0
      simp at hh
    have hmem : ∀ x ∈ d2 :: t2, x < 10 := by
      intro x hx
      refine hd x ?_
      rw [hl]
      exact List.mem_append_right _ hx
    have hnz := natVal_ne_zero hmem (List.cons_ne_nil d2 t2) hd2
    rw [hl, natVal_replicate_zero_append] at h
    exact hnz h

theorem parse_render (neg : Bool) (ip fp : List Nat)
    (hip : ∀ d ∈ ip, d < 10) (hfp : ∀ d ∈ fp, d < 10)
    (hipne : ip ≠ []) (hfpne : fp ≠ [])
    (hlen : (fp.length : Int) ≤ 2 ^ 31) :
    ParseDecimal (String.mk (renderChars neg ip fp))
      = some ⟨(if neg = true then -(natVal (ip ++ fp) : Int) else (natVal (ip ++ fp) : Int)),
          -(fp.length : Int)⟩ := by
  have hipfp : ∀ d ∈ ip ++ fp, d < 10 := by
    intro d hd
    rcases List.mem_append.mp hd with h | h
    · exact hip d h
    · exact hfp d h
  have hfpc : '.' ∉ fp.map digitChar := by
    intro hm
    obtain ⟨d, hd, he⟩ := List.mem_map.mp hm
    exact digitChar_ne_dot d (hfp d hd) he
  have hA : '.' ∉ (if neg then ['-'] else []) ++ ip.map digitChar := by
    intro hm
    rcases List.mem_append.mp hm with h | h
    · rcases neg with _ | _
      · simp at h
      · simp at h
    · obtain ⟨d, hd, he⟩ := List.mem_map.mp h
      exact digitChar_ne_dot d (hip d hd) he
  have hall : (renderChars neg ip fp).all allowedRune = true := by
    refine List.all_eq_true.mpr ?_
    intro c hc
    unfold renderChars at hc
    rcases List.mem_append.mp hc with h | h
    · rcases List.mem_append.mp h with h2 | h2
      · rcases neg with _ | _
        · simp at h2
        · simp at h2
          rw [h2]
          decide
      · obtain ⟨d, hd, he⟩ := List.mem_map.mp h2
        rw [← he]
        exact digitChar_allowed d (hip d hd)
    · rcases List.mem_cons.mp h with h2 | h2
      · rw [h2]
        decide
      · obtain ⟨d, hd, he⟩ := List.mem_map.mp h2
        rw [← he]
        exact digitChar_allowed d (hfp d hd)
  have hsplit : splitOnDot (renderChars neg ip fp)
      = [(if neg then ['-'] else []) ++ ip.map digitChar, fp.map digitChar] := by
    unfold renderChars
    rw [splitOnDot_append hA, splitOnDot_no_dot hfpc]
  have hset : setString ((if neg then ['-'] else []) ++ ip.map digitChar ++ fp.map digitChar)
      = some (if neg = true then -(natVal (ip ++ fp) : Int) else (natVal (ip ++ fp) : Int)) := by
    have hdig : ((ip ++ fp).map digitChar).all Char.isDigit = true := by
      refine List.all_eq_true.mpr ?_
      intro c hc
      obtain ⟨d, hd, he⟩ := List.mem_map.mp hc
      rw [← he]
      exact digitChar_isDigit d (hipfp d hd)
    have hmapne : (ip ++ fp).map digitChar ≠ [] := by
      simp [hipne]
    rcases neg with _ | _
    · simp only [if_neg (by decide : ¬(false = true)), List.nil_append, Bool.false_eq_true]
      rcases hip' : ip with _ | ⟨i0, ipt⟩
      · exact absurd hip' hipne
      · have hi0 : i0 < 10 := hip i0 (by rw [hip']; exact List.mem_cons_self _ _)
        show setString (digitChar i0 :: (ipt.map digitChar ++ fp.map digitChar)) = _
        simp only [setString]
        rw [if_neg (digitChar_ne_plus i0 hi0), if_neg (digitChar_ne_minus i0 hi0)]
        rw [if_pos ?hcond]
        case hcond =>
          have : digitChar i0 :: (ipt.map digitChar ++ fp.map digitChar)
              = (ip ++ fp).map digitChar := by
            rw [hip']
            simp
          rw [this]
          exact hdig
        have hre : digitChar i0 :: (ipt.map digitChar ++ fp.map digitChar)
            = (ip ++ fp).map digitChar := by
          rw [hip']
          simp
        rw [hre, charsVal_map _ hipfp]
        rw [hip']
        simp
    · simp only [if_pos rfl, List.cons_append, List.nil_append]
      show setString ('-' :: (ip.map digitChar ++ fp.map digitChar)) = _
      simp only [setString]
      rw [if_neg (by decide : ¬('-' = '+')), if_pos (by trivial)]
      rw [if_pos ⟨by simp [hipne], by rw [← List.map_append]; exact hdig⟩]
      rw [← List.map_append, charsVal_map _ hipfp]
      simp
  simp only [ParseDecimal]
  rw [show (String.mk (renderChars neg ip fp)).toList = renderChars neg ip fp from rfl]
  rw [if_pos hall, hsplit]
  show parseFinish ((if neg then ['-'] else []) ++ ip.map digitChar ++ fp.map digitChar)
      (-( (fp.map digitChar).length : Int)) = _
  rw [show ((fp.map digitChar).length : Int) = (fp.length : Int) from by simp]
  simp only [parseFinish, hset]
  rw [if_neg ?hrange]
  case hrange =>
    unfold int32Min int32Max
    have h0 : (0 : Int) ≤ (fp.length : Int) := by positivity
    omega

theorem natCharsAbs_ne_nil (n : Nat) : natCharsAbs n ≠ [] := by
  unfold natCharsAbs
  by_cases h0 : n = 0
  · rw [if_pos h0]
    simp
  · rw [if_neg h0]
    rw [digitsRev_eq 10 n (by norm_num)]
    simp [Nat.digits_ne_nil_iff_ne_zero, h0]

theorem toStr_unpack (v : Int) (k : Nat) (hk : 1 ≤ k) :
    Decimal.toStr ⟨v, -(k : Int)⟩
      = (if v < 0 then ['-'] else [])
        ++ ((if k < (natCharsAbs v.natAbs).length
            then (natCharsAbs v.natAbs).take ((natCharsAbs v.natAbs).length - k)
            else ['0'])
          ++ '.' :: (if k < (natCharsAbs v.natAbs).length
            then (natCharsAbs v.natAbs).drop ((natCharsAbs v.natAbs).length - k)
            else List.replicate (k - (natCharsAbs v.natAbs).length) '0'
              ++ natCharsAbs v.natAbs)) := by
  have hexp : ¬((0 : Int) ≤ -(k : Int)) := by omega
  have hkk : (-(-(k : Int))).toNat = k := by simp
  simp only [Decimal.toStr]
  rw [if_neg hexp, hkk]
  set s := natCharsAbs v.natAbs with hs
  have hfrac : (if k < s.length then s.drop (s.length - k)
      else List.replicate (k - s.length) '0' ++ s).length > 0 := by
    split
    · rename_i hlt
      simp only [List.length_drop]
      omega
    · rename_i hlt
      have hpos : 0 < s.length := List.length_pos.mpr (by rw [hs]; exact natCharsAbs_ne_nil _)
      simp only [List.length_append, List.length_replicate]
      omega
  rw [if_pos hfrac]
  split
  · simp
  · simp

theorem render_toStr (neg : Bool) (ip fp : List Nat)
    (hip : ∀ d ∈ ip, d < 10) (hfp : ∀ d ∈ fp, d < 10)
    (hipne : ip ≠ []) (hfpne : fp ≠ [])
    (hlead : ip.head? = some 0 → ip = [0])
    (hnz : neg = true → natVal (ip ++ fp) ≠ 0) :
    Decimal.toStr
        ⟨(if neg = true then -(natVal (ip ++ fp) : Int) else (natVal (ip ++ fp) : Int)),
          -(fp.length : Int)⟩
      = renderChars neg ip fp := by
  have hipfp : ∀ d ∈ ip ++ fp, d < 10 := by
    intro d hd
    rcases List.mem_append.mp hd with h | h
    · exact hip d h
    · exact hfp d h
  have hk1 : 1 ≤ fp.length := List.length_pos.mpr hfpne
  set v : Int := if neg = true then -(natVal (ip ++ fp) : Int) else (natVal (ip ++ fp) : Int)
    with hv
  have hva : v.natAbs = natVal (ip ++ fp) := by
    rcases neg with _ | _ <;> simp [hv]
  rw [toStr_unpack v fp.length hk1, hva]
  have hsign : (if v < 0 then ['-'] else ([] : List Char))
      = (if neg = true then ['-'] else []) := by
    rcases neg with _ | _
    · simp [hv]
    · have hnn : natVal (ip ++ fp) ≠ 0 := hnz rfl
      simp [hv]
      omega
  rw [hsign]
  unfold renderChars
  rw [List.append_assoc]
  congr 1
  by_cases hip0 : ip = [0]
  · subst hip0
    have hfpval : natVal ([0] ++ fp) = natVal fp := natVal_cons_zero fp
    by_cases hfz : natVal fp = 0
    · have hn0 : natVal ([0] ++ fp) = 0 := by rw [hfpval, hfz]
      rw [hn0]
      have hstr : natCharsAbs 0 = ['0'] := rfl
      rw [hstr]
      have hnotlt : ¬(fp.length < ([ '0' ] : List Char).length) := by
        simp only [List.length_cons, List.length_nil]
        omega
      rw [if_neg hnotlt, if_neg hnotlt]
      have hfpz : fp = List.replicate fp.length 0 := natVal_zero_replicate hfp hfz
      have hmap : fp.map digitChar = List.replicate fp.length '0' := by
        conv_lhs => rw [hfpz]
        rw [List.map_replicate, show digitChar 0 = '0' from by decide]
      have hfrac2 : List.replicate (fp.length - (['0'] : List Char).length) '0' ++ ['0']
          = fp.map digitChar := by
        rw [hmap]
        have h1 : (['0'] : List Char).length = 1 := rfl
        rw [h1]
        have h2 : List.replicate (fp.length - 1) '0' ++ ['0']
            = List.replicate ((fp.length - 1) + 1) '0' := by
          rw [List.replicate_succ']
        rw [h2]
        congr 1
        omega
      rw [hfrac2]
      rw [show List.map digitChar [0] = ['0'] from by decide]
    · obtain ⟨z, l2, hfp2, hh2⟩ := strip_zeros fp
      have hl2ne : l2 ≠ [] := by
        intro h2
        subst h2
        refine hfz ?_
        rw [hfp2]
        exact natVal_replicate_zero_append z []
      have hl2head : l2.head hl2ne ≠ 0 := by
        rcases l2 with _ | ⟨d2, t2⟩
        · exact absurd rfl hl2ne
        · simp only [List.head?_cons, ne_eq] at hh2
          simpa using fun h0 => hh2 (by rw [h0])
      have hl2dig : ∀ d ∈ l2, d < 10 := by
        intro d hd
        refine hfp d ?_
        rw [hfp2]
        exact List.mem_append_right _ hd
      have hval2 : natVal ([0] ++ fp) = natVal l2 := by
        rw [hfpval, hfp2, natVal_replicate_zero_append]
      rw [hval2, natCharsAbs_natVal hl2dig hl2ne hl2head]
      have hlen2 : (l2.map digitChar).length = l2.length := by simp
      have hzlen : fp.length = z + l2.length := by
        rw [hfp2]
        simp
      have hnotlt : ¬(fp.length < (l2.map digitChar).length) := by
        rw [hlen2]
        omega
      rw [if_neg hnotlt, if_neg hnotlt]
      have hfrac2 : List.replicate (fp.length - (l2.map digitChar).length) '0'
          ++ l2.map digitChar = fp.map digitChar := by
        rw [hlen2, show fp.length - l2.length = z from by omega]
        conv_rhs => rw [hfp2]
        rw [List.map_append, List.map_replicate, show digitChar 0 = '0' from by decide]
      rw [hfrac2]
      rw [show List.map digitChar [0] = ['0'] from by decide]
  · have hi0 : ∃ i0 ipt, ip = i0 :: ipt ∧ i0 ≠ 0 := by
      rcases hip' : ip with _ | ⟨i0, ipt⟩
      · exact absurd hip' hipne
      · refine ⟨i0, ipt, rfl, ?_⟩
        intro h0
        subst h0
        exact hip0 (hlead (by rw [hip']; rfl))
    obtain ⟨i0, ipt, hip', hi0ne⟩ := hi0
    have happne : ip ++ fp ≠ [] := by
      simp [hipne]
    have hhead : (ip ++ fp).head happne ≠ 0 := by
      subst hip'
      simpa using hi0ne
    have hstr : natCharsAbs (natVal (ip ++ fp)) = (ip ++ fp).map digitChar :=
      natCharsAbs_natVal hipfp happne hhead
    rw [hstr, List.map_append]
    have hlt : fp.length < (ip.map digitChar ++ fp.map digitChar).length := by
      simp only [List.length_append, List.length_map]
      have : 0 < ip.length := List.length_pos.mpr hipne
      omega
    rw [if_pos hlt, if_pos hlt]
    have hsub : (ip.map digitChar ++ fp.map digitChar).length - fp.length
        = (ip.map digitChar).length := by
      simp only [List.length_append, List.length_map]
      omega
    rw [hsub, List.take_left, List.drop_left]

/-- C5 (amended): canonical-text round trip.  A canonical text consists of an
optional minus sign, integer digits with no extraneous leading zero, an
explicit decimal point followed by at least one fractional digit, no sign on
a zero value, and at most 2^31 fractional digits.  `ParseDecimal` accepts
every such text, storing the trailing-zero scale as the exponent (minus the
fraction length), and the `String` rendering reproduces the text exactly. -/
theorem parse_toStr_roundtrip (neg : Bool) (ip fp : List Nat)
    (hip : ∀ d ∈ ip, d < 10) (hfp : ∀ d ∈ fp, d < 10)
    (hipne : ip ≠ []) (hfpne : fp ≠ [])
    (hlead : ip.head? = some 0 → ip = [0])
    (hnz : neg = true → natVal (ip ++ fp) ≠ 0)
    (hlen : (fp.length : Int) ≤ 2 ^ 31) :
    ParseDecimal (String.mk (renderChars neg ip fp))
      = some ⟨(if neg = true then -(natVal (ip ++ fp) : Int) else (natVal (ip ++ fp) : Int)),
          -(fp.length : Int)⟩
    ∧ String.mk (Decimal.toStr
        ⟨(if neg = true then -(natVal (ip ++ fp) : Int) else (natVal (ip ++ fp) : Int)),
          -(fp.length : Int)⟩)
      = String.mk (renderChars neg ip fp) :=
  ⟨parse_render neg ip fp hip hfp hipne hfpne hlen,
    congrArg String.mk (render_toStr neg ip fp hip hfp hipne hfpne hlead hnz)⟩

/-- C5 witness: "120.00" parses to coefficient 12000 at exponent -2 and
prints back as "120.00", not "120". -/
theorem parse_toStr_roundtrip_witness :
    ParseDecimal "120.00" = some ⟨12000, -2⟩
    ∧ String.mk (Decimal.toStr ⟨12000, -2⟩) = "120.00" := by
  obtain ⟨h1, h2⟩ := parse_toStr_roundtrip false [1, 2, 0] [0, 0] (by decide) (by decide)
    (by decide) (by decide) (by decide) (by decide) (by decide)
  constructor
  · rw [show ("120.00" : String) = String.mk (renderChars false [1, 2, 0] [0, 0]) from by decide]
    rw [h1]
    decide
  · rw [show ((⟨12000, -2⟩ : Decimal))
        = (⟨(if (false : Bool) = true then -(natVal ([1, 2, 0] ++ [0, 0]) : Int)
            else (natVal ([1, 2, 0] ++ [0, 0]) : Int)),
          -((([0, 0] : List Nat)).length : Int)⟩ : Decimal) from by decide]
    rw [h2]
    decide

/-- C5 counterexample: "+1.0" fits the claim's canonical shape — an optional
sign, an explicit decimal point, no extraneous leading zeros — yet the round
trip fails: parsing succeeds but printing drops the plus sign. -/
theorem parse_plus_counterexample :
    ParseDecimal "+1.0" = some ⟨10, -1⟩
    ∧ String.mk (Decimal.toStr ⟨10, -1⟩) = "1.0"
    ∧ ("1.0" : String) ≠ "+1.0" := by
  refine ⟨by decide, by decide, by decide⟩
